import Mathlib

/-!
# Verification of the dca2csv converter

A shallow embedding of `dca2csv.py`, which converts the core table of a
Darwin Core Archive into a single CSV file.  Python strings are modelled as
`List Char` (`PyStr`), Python exceptions as the `PyErr` error type carried in
`Except`, and file contents as the sequence of (non-blank) records the CSV
reader yields.  The embedding follows the source line by line:

* `FieldType.make` embeds `FieldType.__init__` (term derivation through
  Python 2's `urlparse(term).path` followed by `split('/')[-1]`, and the
  optional `int(index)` conversion);
* `CoreFileType.init` embeds `CoreFileType.__init__` (attribute extraction,
  `int(ignoreHeaderLines)`, field construction in document order, and the
  two stable `list.sort()` calls driven by `FieldType.__cmp__`);
* `writecsvRun` embeds `writecsv` (header row via `csv.DictWriter` with
  `QUOTE_ALL`, then one `csv.DictReader` pass per location with the
  `ignoreHeaderLines` skip loop and the per-row default injection).
-/

/-- A Python string, modelled as its list of characters. -/
abbrev PyStr := List Char

/-- The Python exceptions the embedded code can raise. -/
inductive PyErr where
  | valueError
  | attributeError
  | stopIteration
  | ioError
deriving Repr, DecidableEq

/-- `s.find(c)` for a predicate: index of the first character satisfying `p`,
`none` when there is none (Python returns `-1`). -/
def pyFindP (p : Char → Bool) : PyStr → Option Nat
  | [] => none
  | x :: xs => if p x then some 0 else (pyFindP p xs).map (· + 1)

/-- Python `s.find(c)` for a single character `c` (index of first occurrence). -/
def pyFindChar (c : Char) (s : PyStr) : Option Nat := pyFindP (· == c) s

/-- Python `s.rfind(c)`: index of the last occurrence of `c` in `s`. -/
def pyRFindChar (c : Char) (s : PyStr) : Option Nat :=
  (pyFindP (· == c) s.reverse).map (fun k => s.length - 1 - k)

/-- Python `s.split(c, 1)[0]`: the part of `s` before the first occurrence of
`c`; all of `s` when `c` does not occur. -/
def stripAfter (c : Char) (s : PyStr) : PyStr :=
  match pyFindChar c s with
  | some i => s.take i
  | none => s

/-- Auxiliary recursion for Python `s.split(c)`, accumulating the current
segment in reverse. -/
def pySplitAux (c : Char) (cur : PyStr) : PyStr → List PyStr
  | [] => [cur.reverse]
  | x :: xs => if x == c then cur.reverse :: pySplitAux c [] xs else pySplitAux c (x :: cur) xs

/-- Python `s.split(c)`: the segments of `s` separated by `c`.  The result is
always non-empty (`''.split('/') == ['']`). -/
def pySplit (c : Char) (s : PyStr) : List PyStr := pySplitAux c [] s

/-- Python `s.lower()` (ASCII case folding, as applied to scheme names). -/
def pyLower (s : PyStr) : PyStr := s.map Char.toLower

/-- The characters allowed in a URL scheme (`urlparse.scheme_chars`). -/
def scheme_chars : PyStr :=
  "abcdefghijklmnopqrstuvwxyzABCDEFGHIJKLMNOPQRSTUVWXYZ0123456789+-.".data

/-- `urlparse.uses_params` from the Python 2.7 standard library. -/
def uses_params : List PyStr :=
  ["ftp", "hdl", "prospero", "http", "imap", "https", "shttp", "rtsp",
   "rtspu", "sip", "sips", "mms", "", "sftp", "tel"].map String.data

/-- `urlparse.uses_query` from the Python 2.7 standard library. -/
def uses_query : List PyStr :=
  ["http", "wais", "imap", "https", "shttp", "mms", "gopher", "rtsp",
   "rtspu", "sip", "sips", "snews", "tel", "fax", "modem", ""].map String.data

/-- `urlparse.uses_fragment` from the Python 2.7 standard library. -/
def uses_fragment : List PyStr :=
  ["ftp", "hdl", "http", "gopher", "news", "nntp", "wais", "https",
   "shttp", "snews", "file", "prospero", ""].map String.data

/-- The `ValueError("Invalid IPv6 URL")` test applied to a netloc: one bracket
present without its partner. -/
def ipv6Bad (netloc : PyStr) : Bool :=
  (netloc.contains '[' && !netloc.contains ']') ||
  (netloc.contains ']' && !netloc.contains '[')

/-- `urlparse._splitnetloc(url, 2)` for a `url` starting with `//`: the netloc
is everything from index 2 up to the first `/`, `?` or `#`, the remainder
starts at that delimiter. -/
def splitNetloc (url : PyStr) : PyStr × PyStr :=
  match pyFindP (fun c => c == '/' || c == '?' || c == '#') (url.drop 2) with
  | some d => ((url.drop 2).take d, (url.drop 2).drop d)
  | none => (url.drop 2, [])

/-- The tail of `urlparse.urlsplit` after scheme detection: optional netloc
split (with the IPv6 validity check), then fragment and query removal guarded
by the scheme lists.  Returns `(scheme, path)`. -/
def urlsplitRest (scheme url : PyStr) : Except PyErr (PyStr × PyStr) :=
  let p := if url.take 2 == "//".data then splitNetloc url else ([], url)
  if ipv6Bad p.1 then .error .valueError
  else
    let u2 := if uses_fragment.contains scheme then stripAfter '#' p.2 else p.2
    let u3 := if uses_query.contains scheme then stripAfter '?' u2 else u2
    .ok (scheme, u3)

/-- `urlparse.urlsplit(url)` restricted to the `(scheme, path)` components,
with default arguments (`scheme=''`, `allow_fragments=True`), including the
optimized `http:` fast path and the digits-only port-number test. -/
def urlsplitSP (url : PyStr) : Except PyErr (PyStr × PyStr) :=
  match pyFindChar ':' url with
  | some i =>
    if 0 < i then
      if url.take i == "http".data then
        let u1 := url.drop (i + 1)
        if u1.take 2 == "//".data then
          let p := splitNetloc u1
          if ipv6Bad p.1 then .error .valueError
          else .ok ("http".data, stripAfter '?' (stripAfter '#' p.2))
        else .ok ("http".data, stripAfter '?' (stripAfter '#' u1))
      else
        if (url.take i).all (fun c => scheme_chars.contains c) &&
           (url.drop (i + 1) == ([] : PyStr) ||
            !((url.drop (i + 1)).all (fun c => '0' ≤ c && c ≤ '9'))) then
          urlsplitRest (pyLower (url.take i)) (url.drop (i + 1))
        else
          urlsplitRest [] url
    else urlsplitRest [] url
  | none => urlsplitRest [] url

/-- `urlparse._splitparams(url)[0]`: strip the `;params` part, searching for
`;` only after the last `/` when the path contains one. -/
def splitparamsPath (url : PyStr) : PyStr :=
  if url.contains '/' then
    match pyRFindChar '/' url with
    | some j =>
      match (pyFindP (· == ';') (url.drop j)).map (· + j) with
      | some i => url.take i
      | none => url
    | none => url
  else stripAfter ';' url

/-- `urlparse.urlparse(url).path`: the path component after the params split,
or a `ValueError` for an invalid IPv6 netloc. -/
def urlparsePath (url : PyStr) : Except PyErr PyStr := do
  let sp ← urlsplitSP url
  if uses_params.contains sp.1 && sp.2.contains ';' then
    pure (splitparamsPath sp.2)
  else
    pure sp.2

/-- Python whitespace, as stripped by `int()`. -/
def isPySpace (c : Char) : Bool :=
  c == ' ' || c == '\t' || c == '\n' || c == '\x0b' || c == '\x0c' || c == '\r'

/-- An ASCII decimal digit. -/
def isPyDigit (c : Char) : Bool := '0' ≤ c && c ≤ '9'

/-- The value of a run of decimal digits. -/
def digitsVal (l : List Char) : Int :=
  l.foldl (fun a c => a * 10 + ((c.toNat : Int) - ('0'.toNat : Int))) 0

/-- Python `int(s)` on a string: surrounding whitespace is stripped, an
optional single sign precedes a non-empty run of decimal digits; anything
else raises `ValueError`. -/
def pyInt (s : PyStr) : Except PyErr Int :=
  let t := ((s.dropWhile isPySpace).reverse.dropWhile isPySpace).reverse
  match t with
  | '+' :: ds =>
    if ds ≠ [] ∧ ds.all isPyDigit then .ok (digitsVal ds) else .error .valueError
  | '-' :: ds =>
    if ds ≠ [] ∧ ds.all isPyDigit then .ok (-(digitsVal ds)) else .error .valueError
  | ds =>
    if ds ≠ [] ∧ ds.all isPyDigit then .ok (digitsVal ds) else .error .valueError

/-- A constructed `FieldType` instance: the derived `_term`, the optional
integer `_index` and the optional `_default`. -/
structure FieldType where
  term : PyStr
  index : Option Int
  default : Option PyStr
deriving Repr, DecidableEq

/-- `FieldType.__init__(term, index, default)`: `urlparse(term).path` followed
by `split('/')[-1]` derives the stored term; an index of `None` or `''`
yields no index, anything else goes through `int()`.  `FieldType(None)`
raises (`urlparse(None)` has no string methods), modelled as
`AttributeError`. -/
def FieldType.make (term : Option PyStr) (index : Option PyStr) (dflt : Option PyStr) :
    Except PyErr FieldType := do
  match term with
  | none => .error .attributeError
  | some t =>
    let path ← urlparsePath t
    let name := (pySplit '/' path).getLastD []
    let idx : Option Int ←
      match index with
      | none => pure none
      | some s =>
        if s == ([] : PyStr) then pure none
        else do
          let n ← pyInt s
          pure (some n)
    pure { term := name, index := idx, default := dflt }

/-- `FieldType.__cmp__` on the index values, with Python 2 mixed comparisons:
`None` compares below every integer and equal to itself. -/
def pyCmpOpt (a b : Option Int) : Int :=
  match a, b with
  | none, none => 0
  | none, some _ => -1
  | some _, none => 1
  | some x, some y => if x > y then 1 else if x < y then -1 else 0

/-- `FieldType.__cmp__(self, other)`. -/
def FieldType.cmp (f g : FieldType) : Int := pyCmpOpt f.index g.index

/-- A `<field>` element of the metafile, as seen through minidom:
`getAttribute` returns the attribute value, or `''` when the attribute is
absent. -/
structure FieldElem where
  term : PyStr
  index : PyStr
  default : PyStr
deriving Repr, DecidableEq

/-- The `<core>` element of a well-formed metafile, as seen through minidom:
attribute values (with `''` for absent attributes), the text contents of the
`<location>` children in document order, and the `<field>` children in
document order. -/
structure CoreElem where
  rowType : PyStr
  fieldsTerminatedBy : PyStr
  linesTerminatedBy : PyStr
  fieldsEnclosedBy : PyStr
  encoding : PyStr
  ignoreHeaderLines : PyStr
  dateFormat : PyStr
  locations : List PyStr
  fields : List FieldElem
deriving Repr, DecidableEq

/-- The parsed descriptor: a constructed `CoreFileType` instance. -/
structure CoreFile where
  rowType : PyStr
  fieldsTerminatedBy : PyStr
  linesTerminatedBy : PyStr
  fieldsEnclosedBy : PyStr
  encoding : PyStr
  ignoreHeaderLines : Int
  dateFormat : PyStr
  locations : List PyStr
  fields : List FieldType
  defaults : List FieldType
deriving Repr, DecidableEq

/-- Python `x or y` for a string `x`: `y` when `x` is empty. -/
def orDefault (s d : PyStr) : PyStr := if s == ([] : PyStr) then d else s

/-- Python `x or None` for a string `x`: `None` when `x` is empty. -/
def orNoneS (s : PyStr) : Option PyStr := if s == ([] : PyStr) then none else some s

/-- The `FieldType(...)` call made for each `<field>` element:
`FieldType(x.getAttribute('term') or None, index=x.getAttribute('index') or
None, default=x.getAttribute('default') or None)`. -/
def FieldType.ofElem (x : FieldElem) : Except PyErr FieldType :=
  FieldType.make (orNoneS x.term) (orNoneS x.index) (orNoneS x.default)

/-- A list comprehension over `Except`: elements are produced left to right
and the first exception aborts the whole construction. -/
def mapMExcept (g : α → Except PyErr β) : List α → Except PyErr (List β)
  | [] => .ok []
  | x :: xs => do
    let y ← g x
    let ys ← mapMExcept g xs
    .ok (y :: ys)

/-- One step of a stable insertion sort driven by a Python `cmp` function:
the new element is placed before the first existing element that is not
strictly smaller. -/
def pyInsert (cmp : α → α → Int) (a : α) : List α → List α
  | [] => [a]
  | b :: l => if cmp b a < 0 then b :: pyInsert cmp a l else a :: b :: l

/-- Python `list.sort()` with a `__cmp__`-based comparison, modelled as a
stable insertion sort: the result is sorted ascending and elements that
compare equal keep their original order, which is exactly the (unique)
behaviour Python guarantees for its stable sort. -/
def pySort (cmp : α → α → Int) : List α → List α
  | [] => []
  | a :: l => pyInsert cmp a (pySort cmp l)

/-- `CoreFileType.__init__(metafile)` on the DOM of a well-formed metafile
with a `core` element: attribute extraction with defaults, the
`int(ignoreHeaderLines)` conversion, location collection, field construction
in document order, and the sorted index/default partition. -/
def CoreFileType.init (core : CoreElem) : Except PyErr CoreFile := do
  let ihl ← pyInt core.ignoreHeaderLines
  let fts ← mapMExcept FieldType.ofElem core.fields
  pure {
    rowType := core.rowType
    fieldsTerminatedBy := orDefault core.fieldsTerminatedBy ",".data
    linesTerminatedBy := orDefault core.linesTerminatedBy "\n".data
    fieldsEnclosedBy := orDefault core.fieldsEnclosedBy "\"".data
    encoding := core.encoding
    ignoreHeaderLines := ihl
    dateFormat := core.dateFormat
    locations := core.locations
    fields := pySort FieldType.cmp (fts.filter (fun f => f.index.isSome))
    defaults := pySort FieldType.cmp (fts.filter (fun f => f.index.isNone))
  }

/-- The header fieldnames built by `writecsv`: positional-field terms then
default-field terms. -/
def fieldnamesOf (c : CoreFile) : List PyStr :=
  c.fields.map FieldType.term ++ c.defaults.map FieldType.term

/-- Lookup in a Python dict represented as its ordered assignment history:
the latest assignment to a key wins; `none` when the key was never
assigned. -/
def lookupLast (entries : List (PyStr × Option PyStr)) (k : PyStr) :
    Option (Option PyStr) :=
  match entries with
  | [] => none
  | e :: rest =>
    match lookupLast rest k with
    | some v => some v
    | none => if e.1 == k then some e.2 else none

/-- `rowdict.get(key, restval)` with `restval = None`: the latest value
assigned to `key`, or `None` when absent. -/
def dictGet (entries : List (PyStr × Option PyStr)) (k : PyStr) : Option PyStr :=
  match lookupLast entries k with
  | some v => v
  | none => none

/-- A row dict flowing from `csv.DictReader` to `csv.DictWriter`: the ordered
string-keyed assignments, plus whether the reader also filled the `restkey`
(`None`) slot because the record had more cells than fieldnames. -/
structure RowDict where
  entries : List (PyStr × Option PyStr)
  hasRest : Bool
deriving Repr, DecidableEq

/-- The string-keyed assignments `csv.DictReader.next` performs for one
record: `dict(zip(fieldnames, row))` followed by `d[key] = restval` (`None`)
for the unfilled trailing fieldnames — i.e. fieldname `i` is assigned the
record's cell `i` when it exists and `None` otherwise, in fieldname order. -/
def readerEntriesAux (record : List PyStr) (i : Nat) : List PyStr → List (PyStr × Option PyStr)
  | [] => []
  | k :: ks => (k, record[i]?) :: readerEntriesAux record (i + 1) ks

/-- The row dict produced by `csv.DictReader.next` for one record. -/
def readerDict (fieldnames : List PyStr) (record : List PyStr) : RowDict :=
  { entries := readerEntriesAux record 0 fieldnames
    hasRest := decide (fieldnames.length < record.length) }

/-- The entries appended by the `row[d.term] = d.default` loop of `writecsv`,
in default-field order. -/
def defaultEntries (defaults : List FieldType) : List (PyStr × Option PyStr) :=
  defaults.map (fun f => (f.term, f.default))

/-- The default-injection loop of `writecsv` applied to a reader row. -/
def applyDefaults (d : RowDict) (defaults : List FieldType) : RowDict :=
  { entries := d.entries ++ defaultEntries defaults, hasRest := d.hasRest }

/-- `csv.DictWriter.writerow` with `extrasaction='raise'`: a `ValueError`
when the dict holds a key outside the fieldnames (here exactly when the
reader filled the `restkey` slot — every string key written by the embedded
code is a fieldname), otherwise one output cell per fieldname via
`rowdict.get(key, None)`. -/
def writeDictRow (fieldnames : List PyStr) (d : RowDict) :
    Except PyErr (List (Option PyStr)) :=
  if d.hasRest then .error .valueError
  else .ok (fieldnames.map (dictGet d.entries))

/-- The header dict `dict((x, x) for x in fieldnames)`. -/
def headerDict (fieldnames : List PyStr) : RowDict :=
  { entries := fieldnames.map (fun x => (x, some x)), hasRest := false }

/-- The record-to-output-row mapping of `writecsv`: read the record against
the full fieldname list, inject the defaults, write through `DictWriter`. -/
def processRecord (fieldnames : List PyStr) (defaults : List FieldType)
    (record : List PyStr) : Except PyErr (List (Option PyStr)) :=
  writeDictRow fieldnames (applyDefaults (readerDict fieldnames record) defaults)

/-- The `for row in dr` loop over one location's remaining records: rows are
written one at a time; an exception keeps the rows already written and aborts
the rest. -/
def processRecords (fieldnames : List PyStr) (defaults : List FieldType) :
    List (List PyStr) → List (List (Option PyStr)) × Option PyErr
  | [] => ([], none)
  | r :: rs =>
    match processRecord fieldnames defaults r with
    | .error e => ([], some e)
    | .ok row =>
      let p := processRecords fieldnames defaults rs
      (row :: p.1, p.2)

/-- One location of the `writecsv` loop, after the file has been opened: the
`range(0, ignoreHeaderLines)` skip loop (each `dr.next()` raises
`StopIteration` when the records run out; a negative count skips nothing)
followed by the row loop. -/
def processLocation (c : CoreFile) (fieldnames : List PyStr)
    (records : List (List PyStr)) : List (List (Option PyStr)) × Option PyErr :=
  if c.ignoreHeaderLines.toNat ≤ records.length then
    processRecords fieldnames c.defaults (records.drop c.ignoreHeaderLines.toNat)
  else ([], some .stopIteration)

/-- The `for location in core.locations` loop: each location is opened
(`IOError` when it cannot be) and processed to completion before the next;
an exception keeps the rows already written and aborts the remaining
locations. -/
def runLocations (c : CoreFile) (fieldnames : List PyStr)
    (fs : PyStr → Option (List (List PyStr))) :
    List PyStr → List (List (Option PyStr)) × Option PyErr
  | [] => ([], none)
  | loc :: rest =>
    match fs loc with
    | none => ([], some .ioError)
    | some records =>
      let p := processLocation c fieldnames records
      match p.2 with
      | some e => (p.1, some e)
      | none =>
        let q := runLocations c fieldnames fs rest
        (p.1 ++ q.1, q.2)

/-- `writecsv(metafile, destination)`, with `fs` mapping each location to the
record sequence its CSV reader yields (or `none` when the file cannot be
opened): descriptor construction, the single header row, then the location
loop.  The result is the sequence of rows written to the destination (cells
still unrendered) together with the exception that aborted the run, if
any. -/
def writecsvRun (core : CoreElem) (fs : PyStr → Option (List (List PyStr))) :
    List (List (Option PyStr)) × Option PyErr :=
  match CoreFileType.init core with
  | .error e => ([], some e)
  | .ok c =>
    match writeDictRow (fieldnamesOf c) (headerDict (fieldnamesOf c)) with
    | .error e => ([], some e)
    | .ok header =>
      let p := runLocations c (fieldnamesOf c) fs c.locations
      (header :: p.1, p.2)

/-- `csv.QUOTE_ALL` rendering of one cell (excel dialect: every cell is
wrapped in double quotes, embedded double quotes are doubled; a `None` cell
renders as the empty string). -/
def csvQuote (s : PyStr) : PyStr :=
  '"' :: ((s.flatMap fun ch => if ch == '"' then ['"', '"'] else [ch]) ++ ['"'])

/-- Rendering of one written cell. -/
def renderCell (v : Option PyStr) : PyStr := csvQuote (v.getD [])

/-- Modelled from the spec: the "final `/`-separated segment" of a term
string, the spec's description of the derived field name. -/
def specLastSegment (s : PyStr) : PyStr := (pySplit '/' s).getLastD []

/-- A sample metafile core element used to instantiate the theorems: two
positional fields listed out of index order (one with a URI term), one
default field, two locations. -/
def wCore : CoreElem :=
  { rowType := "r".data, fieldsTerminatedBy := [], linesTerminatedBy := [],
    fieldsEnclosedBy := [], encoding := [], ignoreHeaderLines := "1".data,
    dateFormat := [],
    locations := ["loc1".data, "loc2".data],
    fields := [ { term := "http://x/b".data, index := "1".data, default := [] },
                { term := "a".data, index := "0".data, default := [] },
                { term := "d".data, index := [], default := "D".data } ] }

/-- The descriptor `CoreFileType.init` builds from `wCore`. -/
def wC : CoreFile :=
  { rowType := "r".data, fieldsTerminatedBy := ",".data,
    linesTerminatedBy := "\n".data, fieldsEnclosedBy := "\"".data,
    encoding := [], ignoreHeaderLines := 1, dateFormat := [],
    locations := ["loc1".data, "loc2".data],
    fields := [ { term := "a".data, index := some 0, default := none },
                { term := "b".data, index := some 1, default := none } ],
    defaults := [ { term := "d".data, index := none, default := some "D".data } ] }

/-- The field instances built from `wCore`'s field elements, in document
order. -/
def wFts : List FieldType :=
  [ { term := "b".data, index := some 1, default := none },
    { term := "a".data, index := some 0, default := none },
    { term := "d".data, index := none, default := some "D".data } ]

/-- Sample source files for `wCore`: the record sequence of each location
(the first record of each plays the part of the skipped header line). -/
def wFs : PyStr → Option (List (List PyStr)) := fun l =>
  if l == "loc1".data then some [["h1".data, "h2".data], ["v1".data, "v2".data]]
  else if l == "loc2".data then some [["g".data], ["w1".data], ["x1".data, "x2".data]]
  else none

/-- A descriptor whose two default fields share the name `d` but carry the
different default values `1` and `2`. -/
def cexDupDefaults : CoreElem :=
  { rowType := [], fieldsTerminatedBy := [], linesTerminatedBy := [],
    fieldsEnclosedBy := [], encoding := [], ignoreHeaderLines := "0".data,
    dateFormat := [], locations := ["f".data],
    fields := [ { term := "d".data, index := [], default := "1".data },
                { term := "d".data, index := [], default := "2".data } ] }

/-- A descriptor whose two positional fields (indices 0 and 1) share the
name `a`. -/
def cexDupPositional : CoreElem :=
  { rowType := [], fieldsTerminatedBy := [], linesTerminatedBy := [],
    fieldsEnclosedBy := [], encoding := [], ignoreHeaderLines := "0".data,
    dateFormat := [], locations := ["f".data],
    fields := [ { term := "a".data, index := "0".data, default := [] },
                { term := "a".data, index := "1".data, default := [] } ] }

/-- A one-location file system with the single two-cell record `v,w`. -/
def cexFs : PyStr → Option (List (List PyStr)) := fun l =>
  if l == "f".data then some [["v".data, "w".data]] else none

/-- A descriptor whose `ignoreHeaderLines` is the valid integer `0` but whose
single field carries the non-integer index `x`. -/
def cexBadIndex : CoreElem :=
  { rowType := [], fieldsTerminatedBy := [], linesTerminatedBy := [],
    fieldsEnclosedBy := [], encoding := [], ignoreHeaderLines := "0".data,
    dateFormat := [], locations := [],
    fields := [ { term := "t".data, index := "x".data, default := [] } ] }

/-- A descriptor with no `ignoreHeaderLines` attribute (minidom's
`getAttribute` returns `''` for it). -/
def cexNoIhl : CoreElem :=
  { rowType := [], fieldsTerminatedBy := [], linesTerminatedBy := [],
    fieldsEnclosedBy := [], encoding := [], ignoreHeaderLines := [],
    dateFormat := [], locations := [], fields := [] }

theorem pySplitAux_ne_nil (c : Char) (cur s : PyStr) : pySplitAux c cur s ≠ [] := by
  induction s generalizing cur with
  | nil => simp [pySplitAux]
  | cons x xs ih =>
    simp only [pySplitAux]
    split
    · simp
    · exact ih _

theorem getLastD_congr {α : Type} {l : List α} (h : l ≠ []) (d d' : α) :
    l.getLastD d = l.getLastD d' := by
  cases l with
  | nil => exact absurd rfl h
  | cons a l => simp only [List.getLastD_cons]

theorem pySplitAux_lastSeg (c : Char) (b : PyStr) :
    ∀ (a cur : PyStr),
      (pySplitAux c cur (a ++ c :: b)).getLastD [] = (pySplit c b).getLastD [] := by
  intro a
  induction a with
  | nil =>
    intro cur
    simp only [List.nil_append, pySplitAux, beq_self_eq_true, if_true, List.getLastD_cons,
      pySplit]
    exact getLastD_congr (pySplitAux_ne_nil c [] b) _ _
  | cons x a ih =>
    intro cur
    simp only [List.cons_append, pySplitAux]
    split
    · rw [List.getLastD_cons]
      exact (getLastD_congr (pySplitAux_ne_nil c [] (a ++ c :: b)) _ _).trans (ih [])
    · exact ih _

theorem pySplitAux_no_sep (c : Char) (s : PyStr) (h : c ∉ s) :
    ∀ cur, pySplitAux c cur s = [cur.reverse ++ s] := by
  induction s with
  | nil => intro cur; simp [pySplitAux]
  | cons x xs ih =>
    intro cur
    have hx : (x == c) = false := by
      simp only [beq_eq_false_iff_ne]
      intro hxc
      exact h (hxc ▸ List.mem_cons_self x xs)
    simp only [pySplitAux, hx, if_false]
    rw [ih (fun hm => h (List.mem_cons_of_mem x hm)) (x :: cur)]
    simp

theorem pySplit_no_sep (c : Char) (s : PyStr) (h : c ∉ s) : pySplit c s = [s] := by
  simpa using pySplitAux_no_sep c s h []

theorem pyFindP_eq_none (p : Char → Bool) (s : PyStr) (h : ∀ x ∈ s, p x = false) :
    pyFindP p s = none := by
  induction s with
  | nil => rfl
  | cons x xs ih =>
    simp only [pyFindP, h x (List.mem_cons_self x xs), if_false]
    rw [ih (fun y hy => h y (List.mem_cons_of_mem x hy))]
    rfl

theorem pyFindP_append (p : Char → Bool) (a : PyStr) (x : Char) (b : PyStr)
    (ha : ∀ c ∈ a, p c = false) (hx : p x = true) :
    pyFindP p (a ++ x :: b) = some a.length := by
  induction a with
  | nil => simp [pyFindP, hx]
  | cons y a ih =>
    have hy : p y = false := ha y (List.mem_cons_self y a)
    simp only [List.cons_append, pyFindP, hy, Bool.false_eq_true, if_false, List.append_eq]
    rw [ih (fun c hc => ha c (List.mem_cons_of_mem y hc))]
    rfl

theorem pyFindChar_eq_none (c : Char) (s : PyStr) (h : c ∉ s) :
    pyFindChar c s = none := by
  apply pyFindP_eq_none
  intro x hx
  exact beq_eq_false_iff_ne.mpr (fun hxc => h (hxc ▸ hx))

theorem stripAfter_no_occ (c : Char) (s : PyStr) (h : c ∉ s) : stripAfter c s = s := by
  simp [stripAfter, pyFindChar_eq_none c s h]

theorem contains_eq_false_of_not_mem {s : PyStr} {c : Char} (h : c ∉ s) :
    s.contains c = false := by
  simpa using h

theorem mem_pyInsert {α : Type} (cmp : α → α → Int) (a x : α) (l : List α) :
    x ∈ pyInsert cmp a l ↔ x = a ∨ x ∈ l := by
  induction l with
  | nil => simp [pyInsert]
  | cons b l ih =>
    simp only [pyInsert]
    split
    · simp only [List.mem_cons, ih]
      tauto
    · simp only [List.mem_cons]

theorem mem_pySort {α : Type} (cmp : α → α → Int) (x : α) (l : List α) :
    x ∈ pySort cmp l ↔ x ∈ l := by
  induction l with
  | nil => simp [pySort]
  | cons a l ih =>
    simp only [pySort, mem_pyInsert, ih, List.mem_cons]

theorem pyInsert_pairwise {α : Type} (cmp : α → α → Int)
    (hskew : ∀ a b, cmp a b = -(cmp b a))
    (htrans : ∀ a b c, cmp a b ≤ 0 → cmp b c ≤ 0 → cmp a c ≤ 0)
    (a : α) (l : List α) (hl : l.Pairwise (fun x y => cmp x y ≤ 0)) :
    (pyInsert cmp a l).Pairwise (fun x y => cmp x y ≤ 0) := by
  induction l with
  | nil => simp [pyInsert]
  | cons b l ih =>
    rcases List.pairwise_cons.mp hl with ⟨hb, hl'⟩
    simp only [pyInsert]
    split
    · rename_i hlt
      refine List.pairwise_cons.mpr ⟨?_, ih hl'⟩
      intro x hx
      rcases (mem_pyInsert cmp a x l).mp hx with rfl | hxl
      · omega
      · exact hb x hxl
    · rename_i hnlt
      have hab : cmp a b ≤ 0 := by
        have := hskew a b
        omega
      refine List.pairwise_cons.mpr ⟨?_, hl⟩
      intro x hx
      rcases List.mem_cons.mp hx with rfl | hxl
      · exact hab
      · exact htrans a b x hab (hb x hxl)

theorem pySort_pairwise {α : Type} (cmp : α → α → Int)
    (hskew : ∀ a b, cmp a b = -(cmp b a))
    (htrans : ∀ a b c, cmp a b ≤ 0 → cmp b c ≤ 0 → cmp a c ≤ 0)
    (l : List α) : (pySort cmp l).Pairwise (fun x y => cmp x y ≤ 0) := by
  induction l with
  | nil => simp [pySort]
  | cons a l ih => exact pyInsert_pairwise cmp hskew htrans a (pySort cmp l) ih

theorem pySort_eq_self {α : Type} (cmp : α → α → Int) (l : List α)
    (h : ∀ x ∈ l, ∀ y ∈ l, ¬ cmp y x < 0) : pySort cmp l = l := by
  induction l with
  | nil => rfl
  | cons a l ih =>
    have hl : pySort cmp l = l :=
      ih (fun x hx y hy => h x (List.mem_cons_of_mem a hx) y (List.mem_cons_of_mem a hy))
    simp only [pySort, hl]
    cases l with
    | nil => rfl
    | cons b l' =>
      have hba : ¬ cmp b a < 0 :=
        h a (List.mem_cons_self a _) b (List.mem_cons_of_mem a (List.mem_cons_self b l'))
      simp [pyInsert, hba]

theorem fieldCmp_skew (f g : FieldType) : FieldType.cmp f g = -(FieldType.cmp g f) := by
  unfold FieldType.cmp pyCmpOpt
  rcases f.index with _ | x <;> rcases g.index with _ | y <;> simp <;> split <;> split <;> omega

theorem fieldCmp_trans (f g h : FieldType) :
    FieldType.cmp f g ≤ 0 → FieldType.cmp g h ≤ 0 → FieldType.cmp f h ≤ 0 := by
  unfold FieldType.cmp pyCmpOpt
  rcases f.index with _ | x <;> rcases g.index with _ | y <;> rcases h.index with _ | z <;>
    simp <;> intros <;> repeat' split at * <;> omega

theorem lookupLast_append (a b : List (PyStr × Option PyStr)) (k : PyStr) :
    lookupLast (a ++ b) k =
      match lookupLast b k with
      | some v => some v
      | none => lookupLast a k := by
  induction a with
  | nil =>
    simp only [List.nil_append, lookupLast]
    cases lookupLast b k <;> rfl
  | cons e a ih =>
    simp only [List.cons_append, lookupLast, List.append_eq, ih]
    cases lookupLast b k <;> cases lookupLast a k <;> rfl

theorem lookupLast_eq_none (a : List (PyStr × Option PyStr)) (k : PyStr)
    (h : k ∉ a.map Prod.fst) : lookupLast a k = none := by
  induction a with
  | nil => rfl
  | cons e a ih =>
    simp only [List.map_cons, List.mem_cons] at h
    push_neg at h
    simp only [lookupLast, ih h.2]
    have : (e.1 == k) = false := beq_eq_false_iff_ne.mpr (fun he => h.1 he.symm)
    simp [this]

theorem lookupLast_nodup (a : List (PyStr × Option PyStr))
    (h : (a.map Prod.fst).Nodup) (j : Nat) (hj : j < a.length) :
    lookupLast a (a.get ⟨j, hj⟩).1 = some (a.get ⟨j, hj⟩).2 := by
  induction a generalizing j with
  | nil => simp at hj
  | cons e a ih =>
    simp only [List.map_cons, List.nodup_cons] at h
    cases j with
    | zero =>
      simp only [List.get]
      have hnot : e.1 ∉ a.map Prod.fst := h.1
      simp only [lookupLast, lookupLast_eq_none a e.1 hnot, beq_self_eq_true]
      rfl
    | succ j =>
      simp only [List.get]
      have hj' : j < a.length := Nat.lt_of_succ_lt_succ hj
      simp only [lookupLast, ih h.2 j hj']

theorem readerEntriesAux_map_fst (record : List PyStr) :
    ∀ (fn : List PyStr) (i : Nat), (readerEntriesAux record i fn).map Prod.fst = fn := by
  intro fn
  induction fn with
  | nil => intro i; rfl
  | cons k ks ih => intro i; simp [readerEntriesAux, ih]

theorem readerEntriesAux_length (record : List PyStr) :
    ∀ (fn : List PyStr) (i : Nat), (readerEntriesAux record i fn).length = fn.length := by
  intro fn
  induction fn with
  | nil => intro i; rfl
  | cons k ks ih => intro i; simp [readerEntriesAux, ih]

theorem readerEntriesAux_getElem (record : List PyStr) :
    ∀ (fn : List PyStr) (i j : Nat),
      (readerEntriesAux record i fn)[j]? = (fn[j]?).map (fun k => (k, record[i + j]?)) := by
  intro fn
  induction fn with
  | nil => intro i j; simp [readerEntriesAux]
  | cons k ks ih =>
    intro i j
    cases j with
    | zero => simp [readerEntriesAux]
    | succ j =>
      simp only [readerEntriesAux, List.getElem?_cons_succ, ih (i + 1) j]
      have hidx : i + 1 + j = i + (j + 1) := by omega
      rw [hidx]

theorem defaultEntries_map_fst (ds : List FieldType) :
    (defaultEntries ds).map Prod.fst = ds.map FieldType.term := by
  simp [defaultEntries]

theorem mapMExcept_ok_mem (g : α → Except PyErr β) :
    ∀ (l : List α) (l' : List β), mapMExcept g l = .ok l' →
      ∀ x ∈ l, ∀ y, g x = .ok y → y ∈ l' := by
  intro l
  induction l with
  | nil => intro l' h x hx; simp at hx
  | cons a l ih =>
    intro l' h x hx y hy
    simp only [mapMExcept, bind, Except.bind] at h
    cases ha : g a with
    | error e => rw [ha] at h; simp at h
    | ok b =>
      rw [ha] at h
      cases hl : mapMExcept g l with
      | error e => rw [hl] at h; simp at h
      | ok bs =>
        rw [hl] at h
        simp only [Except.ok.injEq] at h
        subst h
        rcases List.mem_cons.mp hx with rfl | hxl
        · rw [ha] at hy
          simp only [Except.ok.injEq] at hy
          exact hy ▸ List.mem_cons_self b bs
        · exact List.mem_cons_of_mem b (ih bs hl x hxl y hy)

theorem init_ok_elim (core : CoreElem) (c : CoreFile)
    (hc : CoreFileType.init core = .ok c) :
    ∃ fts, mapMExcept FieldType.ofElem core.fields = .ok fts ∧
      pyInt core.ignoreHeaderLines = .ok c.ignoreHeaderLines ∧
      c.fields = pySort FieldType.cmp (fts.filter (fun f => f.index.isSome)) ∧
      c.defaults = pySort FieldType.cmp (fts.filter (fun f => f.index.isNone)) ∧
      c.locations = core.locations := by
  unfold CoreFileType.init at hc
  simp only [bind, Except.bind] at hc
  cases hn : pyInt core.ignoreHeaderLines with
  | error e => rw [hn] at hc; simp at hc
  | ok n =>
    rw [hn] at hc
    cases hf : mapMExcept FieldType.ofElem core.fields with
    | error e => rw [hf] at hc; simp at hc
    | ok fts =>
      rw [hf] at hc
      simp only [pure, Except.pure, Except.ok.injEq] at hc
      subst hc
      exact ⟨fts, rfl, rfl, rfl, rfl, rfl⟩

theorem processRecord_ok_elim (fn : List PyStr) (ds : List FieldType)
    (r : List PyStr) (row : List (Option PyStr))
    (h : processRecord fn ds r = .ok row) :
    r.length ≤ fn.length ∧
    row = fn.map (dictGet (readerEntriesAux r 0 fn ++ defaultEntries ds)) := by
  unfold processRecord writeDictRow applyDefaults readerDict at h
  split at h
  · simp at h
  · rename_i hrest
    simp only [Except.ok.injEq] at h
    constructor
    · have hlt : ¬ fn.length < r.length := by simpa using hrest
      omega
    · exact h.symm

theorem processRecords_cons_ok (fn : List PyStr) (ds : List FieldType)
    (r : List PyStr) (rs : List (List PyStr)) (row0 : List (Option PyStr))
    (hr : processRecord fn ds r = .ok row0) :
    processRecords fn ds (r :: rs) =
      (row0 :: (processRecords fn ds rs).1, (processRecords fn ds rs).2) := by
  simp only [processRecords, hr]

theorem processRecords_cons_err (fn : List PyStr) (ds : List FieldType)
    (r : List PyStr) (rs : List (List PyStr)) (e : PyErr)
    (hr : processRecord fn ds r = .error e) :
    processRecords fn ds (r :: rs) = ([], some e) := by
  simp only [processRecords, hr]

theorem mem_processRecords (fn : List PyStr) (ds : List FieldType) :
    ∀ (rs : List (List PyStr)) (row : List (Option PyStr)),
      row ∈ (processRecords fn ds rs).1 →
      ∃ r ∈ rs, processRecord fn ds r = .ok row := by
  intro rs
  induction rs with
  | nil => intro row h; simp [processRecords] at h
  | cons r rs ih =>
    intro row h
    cases hr : processRecord fn ds r with
    | error e =>
      rw [processRecords_cons_err fn ds r rs e hr] at h
      simp at h
    | ok row0 =>
      rw [processRecords_cons_ok fn ds r rs row0 hr] at h
      simp only [List.mem_cons] at h
      rcases h with rfl | h
      · exact ⟨r, List.mem_cons_self r rs, hr⟩
      · rcases ih row h with ⟨r', hr', hpr⟩
        exact ⟨r', List.mem_cons_of_mem r hr', hpr⟩

theorem processRecords_ok_length (fn : List PyStr) (ds : List FieldType) :
    ∀ (rs : List (List PyStr)), (processRecords fn ds rs).2 = none →
      (processRecords fn ds rs).1.length = rs.length := by
  intro rs
  induction rs with
  | nil => intro _; rfl
  | cons r rs ih =>
    intro h
    cases hr : processRecord fn ds r with
    | error e =>
      rw [processRecords_cons_err fn ds r rs e hr] at h
      simp at h
    | ok row0 =>
      rw [processRecords_cons_ok fn ds r rs row0 hr] at h ⊢
      simp only [List.length_cons]
      rw [ih h]

theorem processRecords_getElem (fn : List PyStr) (ds : List FieldType) :
    ∀ (rs : List (List PyStr)), (processRecords fn ds rs).2 = none →
      ∀ (k : Nat), (processRecords fn ds rs).1[k]? =
        (rs[k]?).bind (fun r => (processRecord fn ds r).toOption) := by
  intro rs
  induction rs with
  | nil => intro _ k; simp [processRecords]
  | cons r rs ih =>
    intro h k
    cases hr : processRecord fn ds r with
    | error e =>
      rw [processRecords_cons_err fn ds r rs e hr] at h
      simp at h
    | ok row0 =>
      rw [processRecords_cons_ok fn ds r rs row0 hr] at h ⊢
      cases k with
      | zero => simp [hr, Except.toOption]
      | succ k =>
        simp only [List.getElem?_cons_succ]
        exact ih h k

theorem processLocation_ok_elim (c : CoreFile) (fn : List PyStr)
    (records : List (List PyStr))
    (h : (processLocation c fn records).2 = none) :
    c.ignoreHeaderLines.toNat ≤ records.length ∧
    processLocation c fn records =
      processRecords fn c.defaults (records.drop c.ignoreHeaderLines.toNat) := by
  unfold processLocation at h ⊢
  by_cases hle : c.ignoreHeaderLines.toNat ≤ records.length
  · simp [hle]
  · simp [hle] at h

theorem mem_processLocation (c : CoreFile) (fn : List PyStr)
    (records : List (List PyStr)) (row : List (Option PyStr))
    (h : row ∈ (processLocation c fn records).1) :
    ∃ r ∈ records, processRecord fn c.defaults r = .ok row := by
  unfold processLocation at h
  by_cases hle : c.ignoreHeaderLines.toNat ≤ records.length
  · simp only [hle, if_true] at h
    rcases mem_processRecords fn c.defaults _ row h with ⟨r, hr, hpr⟩
    exact ⟨r, List.drop_subset _ _ hr, hpr⟩
  · simp [hle] at h

theorem runLocations_cons_none (c : CoreFile) (fn : List PyStr)
    (fs : PyStr → Option (List (List PyStr))) (loc : PyStr) (rest : List PyStr)
    (hfs : fs loc = none) :
    runLocations c fn fs (loc :: rest) = ([], some .ioError) := by
  simp only [runLocations, hfs]

theorem runLocations_cons_err (c : CoreFile) (fn : List PyStr)
    (fs : PyStr → Option (List (List PyStr))) (loc : PyStr) (rest : List PyStr)
    (records : List (List PyStr)) (e : PyErr)
    (hfs : fs loc = some records) (hp : (processLocation c fn records).2 = some e) :
    runLocations c fn fs (loc :: rest) = ((processLocation c fn records).1, some e) := by
  simp only [runLocations, hfs, hp]

theorem runLocations_cons_ok (c : CoreFile) (fn : List PyStr)
    (fs : PyStr → Option (List (List PyStr))) (loc : PyStr) (rest : List PyStr)
    (records : List (List PyStr))
    (hfs : fs loc = some records) (hp : (processLocation c fn records).2 = none) :
    runLocations c fn fs (loc :: rest) =
      ((processLocation c fn records).1 ++ (runLocations c fn fs rest).1,
        (runLocations c fn fs rest).2) := by
  simp only [runLocations, hfs, hp]

theorem mem_runLocations (c : CoreFile) (fn : List PyStr)
    (fs : PyStr → Option (List (List PyStr))) :
    ∀ (locs : List PyStr) (row : List (Option PyStr)),
      row ∈ (runLocations c fn fs locs).1 →
      ∃ loc ∈ locs, ∃ records, fs loc = some records ∧
        ∃ r ∈ records, processRecord fn c.defaults r = .ok row := by
  intro locs
  induction locs with
  | nil => intro row h; simp [runLocations] at h
  | cons loc rest ih =>
    intro row h
    cases hfs : fs loc with
    | none =>
      rw [runLocations_cons_none c fn fs loc rest hfs] at h
      simp at h
    | some records =>
      have hloc :
          row ∈ (processLocation c fn records).1 →
          ∃ loc' ∈ loc :: rest, ∃ records', fs loc' = some records' ∧
            ∃ r ∈ records', processRecord fn c.defaults r = .ok row := by
        intro hm
        rcases mem_processLocation c fn records row hm with ⟨r, hr, hpr⟩
        exact ⟨loc, List.mem_cons_self loc rest, records, hfs, r, hr, hpr⟩
      cases hp : (processLocation c fn records).2 with
      | some e =>
        rw [runLocations_cons_err c fn fs loc rest records e hfs hp] at h
        exact hloc h
      | none =>
        rw [runLocations_cons_ok c fn fs loc rest records hfs hp] at h
        rcases List.mem_append.mp h with hm | hm
        · exact hloc hm
        · rcases ih row hm with ⟨loc', hl', records', hfs', hrest⟩
          exact ⟨loc', List.mem_cons_of_mem loc hl', records', hfs', hrest⟩

theorem runLocations_ok_elim (c : CoreFile) (fn : List PyStr)
    (fs : PyStr → Option (List (List PyStr))) :
    ∀ (locs : List PyStr), (runLocations c fn fs locs).2 = none →
      (runLocations c fn fs locs).1 =
        (locs.map (fun loc => (processLocation c fn ((fs loc).getD [])).1)).flatten ∧
      ∀ loc ∈ locs, ∃ records, fs loc = some records ∧
        (processLocation c fn records).2 = none := by
  intro locs
  induction locs with
  | nil => intro _; simp [runLocations]
  | cons loc rest ih =>
    intro h
    cases hfs : fs loc with
    | none =>
      rw [runLocations_cons_none c fn fs loc rest hfs] at h
      simp at h
    | some records =>
      cases hp : (processLocation c fn records).2 with
      | some e =>
        rw [runLocations_cons_err c fn fs loc rest records e hfs hp] at h
        simp at h
      | none =>
        rw [runLocations_cons_ok c fn fs loc rest records hfs hp] at h ⊢
        rcases ih h with ⟨hjoin, hall⟩
        constructor
        · simp only [List.map_cons, List.flatten_cons, hfs, Option.getD_some, hjoin]
        · intro loc' hl'
          rcases List.mem_cons.mp hl' with rfl | hl'
          · exact ⟨records, hfs, hp⟩
          · exact hall loc' hl'

theorem lookupLast_headerEntries (fn : List PyStr) (k : PyStr) (hk : k ∈ fn) :
    lookupLast (fn.map (fun x => (x, some x))) k = some (some k) := by
  induction fn with
  | nil => simp at hk
  | cons a fn ih =>
    by_cases hkf : k ∈ fn
    · simp only [List.map_cons, lookupLast, ih hkf]
    · have hka : k = a := by
        rcases List.mem_cons.mp hk with h | h
        · exact h
        · exact absurd h hkf
      subst hka
      have hnone : lookupLast (fn.map (fun x => (x, some x))) k = none := by
        apply lookupLast_eq_none
        simpa [List.map_map, Function.comp] using hkf
      simp [List.map_cons, lookupLast, hnone]

theorem writecsvRun_ok_elim (core : CoreElem)
    (fs : PyStr → Option (List (List PyStr))) (c : CoreFile)
    (hc : CoreFileType.init core = .ok c) :
    writecsvRun core fs =
      (((fieldnamesOf c).map some) :: (runLocations c (fieldnamesOf c) fs c.locations).1,
        (runLocations c (fieldnamesOf c) fs c.locations).2) := by
  have hheader : writeDictRow (fieldnamesOf c) (headerDict (fieldnamesOf c)) =
      .ok ((fieldnamesOf c).map some) := by
    unfold writeDictRow headerDict
    simp only [Bool.false_eq_true, if_false, Except.ok.injEq]
    apply List.map_congr_left
    intro k hk
    simp only [dictGet, lookupLast_headerEntries (fieldnamesOf c) k hk]
  simp only [writecsvRun, hc, hheader]

theorem pySort_defaults_eq (fts : List FieldType) :
    pySort FieldType.cmp (fts.filter (fun f => f.index.isNone)) =
      fts.filter (fun f => f.index.isNone) := by
  apply pySort_eq_self
  intro x hx y hy
  have hxn : x.index = none := by
    have h := (List.mem_filter.mp hx).2
    simpa [Option.isNone_iff_eq_none] using h
  have hyn : y.index = none := by
    have h := (List.mem_filter.mp hy).2
    simpa [Option.isNone_iff_eq_none] using h
  simp [FieldType.cmp, hxn, hyn, pyCmpOpt]

/-- C6: for every descriptor, the parsed descriptor's default fields (the
fields lacking an index) appear in the same relative order as their `field`
elements appear in the descriptor document: the stable sort compares all
index-less fields equal, so it leaves the document-order filtering
untouched. -/
theorem claim6_defaults_document_order (core : CoreElem) (c : CoreFile)
    (fts : List FieldType)
    (hm : mapMExcept FieldType.ofElem core.fields = .ok fts)
    (hc : CoreFileType.init core = .ok c) :
    c.defaults = fts.filter (fun f => f.index.isNone) := by
  rcases init_ok_elim core c hc with ⟨fts', hm', _, _, hdef, _⟩
  rw [hm] at hm'
  have hfts : fts = fts' := by
    simpa using hm'
  subst hfts
  rw [hdef, pySort_defaults_eq]

theorem claim6_witness :
    mapMExcept FieldType.ofElem wCore.fields = .ok wFts
    ∧ CoreFileType.init wCore = .ok wC
    ∧ wC.defaults = wFts.filter (fun f => f.index.isNone) :=
  ⟨by rfl, by rfl, claim6_defaults_document_order wCore wC wFts (by rfl) (by rfl)⟩

/-- C7: for every descriptor and every input order of its `field` elements,
the parsed descriptor's positional-field list is sorted ascending by the
fields' index values (every positional field carries an index, and
consecutive fields compare `≤` under `FieldType.__cmp__`). -/
theorem claim7_positional_sorted (core : CoreElem) (c : CoreFile)
    (hc : CoreFileType.init core = .ok c) :
    c.fields.Pairwise (fun f g => FieldType.cmp f g ≤ 0) ∧
    ∀ f ∈ c.fields, f.index.isSome := by
  rcases init_ok_elim core c hc with ⟨fts, _, _, hfields, _, _⟩
  constructor
  · rw [hfields]
    exact pySort_pairwise _ fieldCmp_skew fieldCmp_trans _
  · intro f hf
    rw [hfields] at hf
    exact (List.mem_filter.mp ((mem_pySort _ f _).mp hf)).2

theorem claim7_witness :
    wC.fields.Pairwise (fun f g => FieldType.cmp f g ≤ 0) ∧
    ∀ f ∈ wC.fields, f.index.isSome :=
  claim7_positional_sorted wCore wC (by rfl)

/-- C9 (amended): parsing fails when `ignoreHeaderLines` is missing
(minidom returns `''`) or not an integer — the `int()` error aborts the
constructor; when the attribute is a valid integer, parsing of that
attribute succeeds and the value is stored unchanged in any successfully
built descriptor.  (Parsing may still fail for other reasons, e.g. a
non-integer field index, so the failure is not *only* caused by this
attribute.) -/
theorem claim9_headerlines (core : CoreElem) :
    (∀ e, pyInt core.ignoreHeaderLines = .error e → CoreFileType.init core = .error e)
    ∧ pyInt ([] : PyStr) = .error .valueError
    ∧ ∀ n, pyInt core.ignoreHeaderLines = .ok n →
        ∀ c, CoreFileType.init core = .ok c → c.ignoreHeaderLines = n := by
  refine ⟨?_, by rfl, ?_⟩
  · intro e he
    unfold CoreFileType.init
    simp only [bind, Except.bind, he]
  · intro n hn c hc
    rcases init_ok_elim core c hc with ⟨fts, _, hihl, _⟩
    rw [hn] at hihl
    have hnn : n = c.ignoreHeaderLines := by simpa using hihl
    exact hnn.symm

/-- C9 counterexample: a well-formed descriptor whose `ignoreHeaderLines`
is the valid integer `0` still fails to parse, because its field's `index`
attribute is not an integer — refuting the claimed "if and only if". -/
theorem claim9_cex :
    pyInt cexBadIndex.ignoreHeaderLines = .ok 0
    ∧ CoreFileType.init cexBadIndex = .error .valueError := ⟨rfl, rfl⟩

theorem claim9_witness :
    CoreFileType.init cexNoIhl = .error .valueError
    ∧ wC.ignoreHeaderLines = 1 :=
  ⟨(claim9_headerlines cexNoIhl).1 .valueError (by rfl),
   (claim9_headerlines wCore).2.2 1 (by rfl) wC (by rfl)⟩

/-- C10: constructing a field with an empty-string index yields the same
field as constructing it with no index at all; the resulting index is
absent, and any constructed field without an index is classified as a
default field and not as a positional field. -/
theorem claim10_empty_index (t : PyStr) (d : Option PyStr) :
    FieldType.make (some t) (some []) d = FieldType.make (some t) none d
    ∧ (∀ f, FieldType.make (some t) none d = .ok f → f.index = none)
    ∧ ∀ (core : CoreElem) (c : CoreFile) (f : FieldType),
        CoreFileType.init core = .ok c → f.index = none →
        (∃ x ∈ core.fields, FieldType.ofElem x = .ok f) →
        f ∈ c.defaults ∧ f ∉ c.fields := by
  refine ⟨rfl, ?_, ?_⟩
  · intro f h
    unfold FieldType.make at h
    simp only [bind, Except.bind] at h
    cases hp : urlparsePath t with
    | error e => rw [hp] at h; simp at h
    | ok path =>
      rw [hp] at h
      simp only [pure, Except.pure, Except.ok.injEq] at h
      subst h
      rfl
  · intro core c f hc hidx hex
    rcases init_ok_elim core c hc with ⟨fts, hm, _, hfields, hdefs, _⟩
    rcases hex with ⟨x, hx, hof⟩
    have hmem : f ∈ fts := mapMExcept_ok_mem FieldType.ofElem core.fields fts hm x hx f hof
    constructor
    · rw [hdefs]
      exact (mem_pySort _ f _).mpr (List.mem_filter.mpr ⟨hmem, by simp [hidx]⟩)
    · rw [hfields]
      intro hcon
      have hsome := (List.mem_filter.mp ((mem_pySort _ f _).mp hcon)).2
      rw [hidx] at hsome
      simp at hsome

theorem claim10_witness :
    FieldType.make (some "foo".data) (some []) none = FieldType.make (some "foo".data) none none
    ∧ wFts[2].index = none
    ∧ (wFts[2] ∈ wC.defaults ∧ wFts[2] ∉ wC.fields) :=
  ⟨(claim10_empty_index "foo".data none).1,
   (claim10_empty_index "d".data (some "D".data)).2.1 wFts[2] (by rfl),
   (claim10_empty_index "d".data (some "D".data)).2.2 wCore wC wFts[2] (by rfl) (by rfl)
     ⟨wCore.fields[2], by decide, by rfl⟩⟩

/-- C1: for every parsed descriptor, the output column order is all
positional-field names (in sorted position order) followed by all
default-field names (in document order); this exact sequence is the first
row written to the destination, every later row comes from a source record
(so the header appears exactly once, before any data row, however many
locations the descriptor lists), and every header value is rendered fully
quoted. -/
theorem claim1_header (core : CoreElem) (fs : PyStr → Option (List (List PyStr)))
    (c : CoreFile) (hc : CoreFileType.init core = .ok c) :
    (writecsvRun core fs).1.head? =
      some ((c.fields.map FieldType.term ++ c.defaults.map FieldType.term).map some)
    ∧ c.fields.Pairwise (fun f g => FieldType.cmp f g ≤ 0)
    ∧ (∃ fts, mapMExcept FieldType.ofElem core.fields = .ok fts ∧
        c.defaults = fts.filter (fun f => f.index.isNone))
    ∧ (∀ row ∈ (writecsvRun core fs).1.tail,
        ∃ loc ∈ c.locations, ∃ records, fs loc = some records ∧
          ∃ r ∈ records, processRecord (fieldnamesOf c) c.defaults r = .ok row)
    ∧ ∀ cell ∈ ((writecsvRun core fs).1.headD []).map renderCell,
        ∃ s, cell = '"' :: (s ++ ['"']) := by
  rw [writecsvRun_ok_elim core fs c hc]
  rcases init_ok_elim core c hc with ⟨fts, hm, _, hfields, hdefs, _⟩
  refine ⟨rfl, ?_, ⟨fts, hm, ?_⟩, ?_, ?_⟩
  · rw [hfields]
    exact pySort_pairwise _ fieldCmp_skew fieldCmp_trans _
  · rw [hdefs, pySort_defaults_eq]
  · intro row hrow
    simp only [List.tail_cons] at hrow
    exact mem_runLocations c (fieldnamesOf c) fs c.locations row hrow
  · intro cell hcell
    simp only [List.headD_cons] at hcell
    rcases List.mem_map.mp hcell with ⟨v, _, rfl⟩
    exact ⟨_, rfl⟩

theorem claim1_witness :
    (writecsvRun wCore wFs).1.head? =
      some ((wC.fields.map FieldType.term ++ wC.defaults.map FieldType.term).map some)
    ∧ wC.fields.Pairwise (fun f g => FieldType.cmp f g ≤ 0)
    ∧ (∃ fts, mapMExcept FieldType.ofElem wCore.fields = .ok fts ∧
        wC.defaults = fts.filter (fun f => f.index.isNone))
    ∧ (∀ row ∈ (writecsvRun wCore wFs).1.tail,
        ∃ loc ∈ wC.locations, ∃ records, wFs loc = some records ∧
          ∃ r ∈ records, processRecord (fieldnamesOf wC) wC.defaults r = .ok row)
    ∧ ∀ cell ∈ ((writecsvRun wCore wFs).1.headD []).map renderCell,
        ∃ s, cell = '"' :: (s ++ ['"']) :=
  claim1_header wCore wFs wC (by rfl)

/-- C2: in a run where every location opens and no row error occurs (the run
finishes without an exception), the number of data rows equals the sum over
the locations of (record count − headerLinesToSkip), and the data rows are
exactly the per-location row blocks concatenated in the descriptor's
location order. -/
theorem claim2_rowcount (core : CoreElem) (fs : PyStr → Option (List (List PyStr)))
    (c : CoreFile) (hc : CoreFileType.init core = .ok c)
    (hs : (writecsvRun core fs).2 = none) :
    (writecsvRun core fs).1.length =
      1 + (c.locations.map (fun loc =>
        ((fs loc).getD []).length - c.ignoreHeaderLines.toNat)).sum
    ∧ (writecsvRun core fs).1.tail =
      (c.locations.map (fun loc =>
        (processLocation c (fieldnamesOf c) ((fs loc).getD [])).1)).flatten := by
  rw [writecsvRun_ok_elim core fs c hc] at hs ⊢
  rcases runLocations_ok_elim c (fieldnamesOf c) fs c.locations hs with ⟨hjoin, hall⟩
  constructor
  · simp only [List.length_cons, hjoin, List.length_flatten, List.map_map]
    have hmap : ∀ loc ∈ c.locations,
        (List.length ∘ fun loc => (processLocation c (fieldnamesOf c) ((fs loc).getD [])).1) loc
          = ((fs loc).getD []).length - c.ignoreHeaderLines.toNat := by
      intro loc hloc
      rcases hall loc hloc with ⟨records, hfs, hok⟩
      rcases processLocation_ok_elim c (fieldnamesOf c) records hok with ⟨hle, heq⟩
      have h2 : (processRecords (fieldnamesOf c) c.defaults
          (records.drop c.ignoreHeaderLines.toNat)).2 = none := heq ▸ hok
      simp only [Function.comp, hfs, Option.getD_some, heq]
      rw [processRecords_ok_length _ _ _ h2, List.length_drop]
    rw [List.map_congr_left hmap]
    omega
  · simp only [List.tail_cons, hjoin]

theorem claim2_witness :
    (writecsvRun wCore wFs).1.length =
      1 + (wC.locations.map (fun loc =>
        ((wFs loc).getD []).length - wC.ignoreHeaderLines.toNat)).sum
    ∧ (writecsvRun wCore wFs).1.tail =
      (wC.locations.map (fun loc =>
        (processLocation wC (fieldnamesOf wC) ((wFs loc).getD [])).1)).flatten :=
  claim2_rowcount wCore wFs wC (by rfl) (by rfl)

/-- C8: for a location whose processing completes, exactly the first
`ignoreHeaderLines` records are discarded by the skip loop before any data
row is produced: the block's rows are in one-to-one, order-preserving
correspondence with the records from position `ignoreHeaderLines` on, and no
later record is skipped.  (A negative count skips nothing — `toNat` — and
running out of records while skipping raises `StopIteration`.) -/
theorem claim8_skip (c : CoreFile) (fn : List PyStr) (records : List (List PyStr))
    (h : (processLocation c fn records).2 = none) :
    c.ignoreHeaderLines.toNat ≤ records.length
    ∧ (processLocation c fn records).1.length =
        records.length - c.ignoreHeaderLines.toNat
    ∧ ∀ (k : Nat), (processLocation c fn records).1[k]? =
        ((records.drop c.ignoreHeaderLines.toNat)[k]?).bind
          (fun r => (processRecord fn c.defaults r).toOption) := by
  rcases processLocation_ok_elim c fn records h with ⟨hle, heq⟩
  have h2 : (processRecords fn c.defaults
      (records.drop c.ignoreHeaderLines.toNat)).2 = none := heq ▸ h
  refine ⟨hle, ?_, ?_⟩
  · rw [heq, processRecords_ok_length fn c.defaults _ h2, List.length_drop]
  · intro k
    rw [heq]
    exact processRecords_getElem fn c.defaults _ h2 k

theorem claim8_witness :
    wC.ignoreHeaderLines.toNat ≤
      ([["g".data], ["w1".data], ["x1".data, "x2".data]] : List (List PyStr)).length
    ∧ (processLocation wC (fieldnamesOf wC)
        [["g".data], ["w1".data], ["x1".data, "x2".data]]).1.length =
        ([["g".data], ["w1".data], ["x1".data, "x2".data]] : List (List PyStr)).length -
          wC.ignoreHeaderLines.toNat
    ∧ ∀ (k : Nat), (processLocation wC (fieldnamesOf wC)
        [["g".data], ["w1".data], ["x1".data, "x2".data]]).1[k]? =
        ((([["g".data], ["w1".data], ["x1".data, "x2".data]] :
            List (List PyStr)).drop wC.ignoreHeaderLines.toNat)[k]?).bind
          (fun r => (processRecord (fieldnamesOf wC) wC.defaults r).toOption) :=
  claim8_skip wC (fieldnamesOf wC) [["g".data], ["w1".data], ["x1".data, "x2".data]] (by rfl)

theorem lookupLast_defaultEntries (ds : List FieldType) :
    (ds.map FieldType.term).Nodup →
    ∀ (j : Nat) (hj : j < ds.length),
      lookupLast (defaultEntries ds) ((ds.get ⟨j, hj⟩).term) =
        some ((ds.get ⟨j, hj⟩).default) := by
  induction ds with
  | nil => intro _ j hj; simp at hj
  | cons f ds ih =>
    intro hnd j hj
    simp only [List.map_cons, List.nodup_cons] at hnd
    cases j with
    | zero =>
      show lookupLast ((f.term, f.default) :: defaultEntries ds) f.term = some f.default
      have hnone : lookupLast (defaultEntries ds) f.term = none := by
        apply lookupLast_eq_none
        rw [defaultEntries_map_fst]
        exact hnd.1
      simp [lookupLast, hnone]
    | succ j =>
      have hj' : j < ds.length := Nat.lt_of_succ_lt_succ hj
      have hih := ih hnd.2 j hj'
      show lookupLast ((f.term, f.default) :: defaultEntries ds) ((ds.get ⟨j, hj'⟩).term) =
        some ((ds.get ⟨j, hj'⟩).default)
      simp only [lookupLast, hih]

theorem lookupLast_readerEntries (record : List PyStr) :
    ∀ (fn : List PyStr), fn.Nodup →
      ∀ (i j : Nat) (hj : j < fn.length),
        lookupLast (readerEntriesAux record i fn) (fn.get ⟨j, hj⟩) =
          some (record[i + j]?) := by
  intro fn
  induction fn with
  | nil => intro _ i j hj; simp at hj
  | cons k ks ih =>
    intro hnd i j hj
    rw [List.nodup_cons] at hnd
    cases j with
    | zero =>
      show lookupLast ((k, record[i]?) :: readerEntriesAux record (i + 1) ks) k =
        some (record[i + 0]?)
      have hnone : lookupLast (readerEntriesAux record (i + 1) ks) k = none := by
        apply lookupLast_eq_none
        rw [readerEntriesAux_map_fst]
        exact hnd.1
      simp [lookupLast, hnone]
    | succ j =>
      have hj' : j < ks.length := Nat.lt_of_succ_lt_succ hj
      have hih := ih hnd.2 (i + 1) j hj'
      have hidx : i + 1 + j = i + (j + 1) := by omega
      rw [hidx] at hih
      show lookupLast ((k, record[i]?) :: readerEntriesAux record (i + 1) ks)
          (ks.get ⟨j, hj'⟩) = some (record[i + (j + 1)]?)
      simp only [lookupLast, hih]

/-- C3 (amended): provided no two default fields share a name, every output
data row's column for the `j`-th default field (at position
`|positional| + j`, the column named by that field) equals the field's
configured default value, whatever the source record held.  (When two
default fields share a name, the later field's default overwrites the
earlier one's — see the counterexample.) -/
theorem claim3_default_columns (core : CoreElem) (fs : PyStr → Option (List (List PyStr)))
    (c : CoreFile) (hc : CoreFileType.init core = .ok c)
    (hnd : (c.defaults.map FieldType.term).Nodup)
    (row : List (Option PyStr)) (hrow : row ∈ (writecsvRun core fs).1.tail)
    (j : Nat) (hj : j < c.defaults.length) :
    row[c.fields.length + j]? = some ((c.defaults.get ⟨j, hj⟩).default) := by
  rw [writecsvRun_ok_elim core fs c hc] at hrow
  simp only [List.tail_cons] at hrow
  rcases mem_runLocations c (fieldnamesOf c) fs c.locations row hrow with
    ⟨loc, _, records, _, r, _, hpr⟩
  rcases processRecord_ok_elim (fieldnamesOf c) c.defaults r row hpr with ⟨_, hroweq⟩
  subst hroweq
  rw [List.getElem?_map]
  have hfn : (fieldnamesOf c)[c.fields.length + j]? =
      some ((c.defaults.get ⟨j, hj⟩).term) := by
    unfold fieldnamesOf
    rw [List.getElem?_append_right (by simp)]
    simp only [List.length_map]
    have hidx : c.fields.length + j - c.fields.length = j := by omega
    rw [hidx, List.getElem?_map, List.getElem?_eq_getElem hj]
    simp [List.get_eq_getElem]
  rw [hfn]
  simp only [Option.map_some']
  congr 1
  unfold dictGet
  rw [lookupLast_append,
    lookupLast_defaultEntries c.defaults hnd j hj]

/-- C3 counterexample: a descriptor with two default fields both named `d`,
with configured defaults `1` and `2`.  The only data row's column for the
first default field (column 0, since there are no positional fields) holds
`2`, not the first field's configured `1`. -/
theorem claim3_cex :
    (CoreFileType.init cexDupDefaults).map
        (fun c => (c.fields.length, c.defaults.map FieldType.default)) =
      .ok (0, [some "1".data, some "2".data])
    ∧ (writecsvRun cexDupDefaults cexFs).1.tail = [[some "2".data, some "2".data]]
    ∧ (some "2".data : Option PyStr) ≠ some "1".data :=
  ⟨rfl, rfl, by decide⟩

theorem claim3_witness :
    ([some "v1".data, some "v2".data, some "D".data] : List (Option PyStr))[2]? =
      some (some "D".data) :=
  claim3_default_columns wCore wFs wC (by rfl) (by decide)
    [some "v1".data, some "v2".data, some "D".data] (by decide) 0 (by decide)

/-- C5 (amended): provided all field names (positional and default together)
are pairwise distinct, the converter passes positional values through
unchanged: for every source record with a cell at position `i`, the output
row's `i`-th column is exactly that cell (a record too short for a
positional column yields `None`/empty there instead).  (With duplicate
names the shared dictionary key makes a later cell or a default overwrite
the column — see the counterexample.) -/
theorem claim5_positional_passthrough (core : CoreElem)
    (c : CoreFile) (hc : CoreFileType.init core = .ok c)
    (hnd : (fieldnamesOf c).Nodup)
    (record : List PyStr) (row : List (Option PyStr))
    (hpr : processRecord (fieldnamesOf c) c.defaults record = .ok row)
    (i : Nat) (hi : i < c.fields.length) (hir : i < record.length) :
    row[i]? = some (some (record.get ⟨i, hir⟩)) := by
  rcases processRecord_ok_elim (fieldnamesOf c) c.defaults record row hpr with ⟨_, hroweq⟩
  subst hroweq
  have hifn : i < (fieldnamesOf c).length := by
    simp only [fieldnamesOf, List.length_append, List.length_map]
    omega
  rw [List.getElem?_map]
  have hfn : (fieldnamesOf c)[i]? = some ((c.fields.get ⟨i, hi⟩).term) := by
    unfold fieldnamesOf
    rw [List.getElem?_append_left (by simpa using hi)]
    rw [List.getElem?_map, List.getElem?_eq_getElem hi]
    simp [List.get_eq_getElem]
  rw [hfn]
  simp only [Option.map_some']
  congr 1
  unfold dictGet
  rw [lookupLast_append]
  have hterm_not_def :
      (c.fields.get ⟨i, hi⟩).term ∉ (defaultEntries c.defaults).map Prod.fst := by
    rw [defaultEntries_map_fst]
    have hdisj := (List.nodup_append.mp (by simpa [fieldnamesOf] using hnd)).2.2
    intro hmem
    exact hdisj (List.mem_map_of_mem FieldType.term (List.get_mem c.fields i hi)) hmem
  rw [lookupLast_eq_none _ _ hterm_not_def]
  have hget : (fieldnamesOf c).get ⟨i, hifn⟩ = (c.fields.get ⟨i, hi⟩).term := by
    have h1 : (fieldnamesOf c)[i]? = some ((fieldnamesOf c).get ⟨i, hifn⟩) := by
      simp [List.getElem?_eq_getElem hifn, List.get_eq_getElem]
    rw [hfn] at h1
    exact (Option.some.inj h1).symm
  have hread := lookupLast_readerEntries record (fieldnamesOf c) hnd 0 i hifn
  simp only [Nat.zero_add] at hread
  rw [← hget, hread]
  simp [List.getElem?_eq_getElem hir, List.get_eq_getElem]

/-- C5 counterexample: a descriptor whose two positional fields (indices 0
and 1) share the name `a`.  For the source record `v,w` the first positional
column of the output row holds `w`, not the corresponding source cell `v`:
the shared dictionary key makes the later cell win both columns. -/
theorem claim5_cex :
    (CoreFileType.init cexDupPositional).map (fun c => c.fields.map FieldType.term) =
      .ok ["a".data, "a".data]
    ∧ cexFs "f".data = some [["v".data, "w".data]]
    ∧ (writecsvRun cexDupPositional cexFs).1.tail = [[some "w".data, some "w".data]]
    ∧ (some "w".data : Option PyStr) ≠ some "v".data :=
  ⟨rfl, rfl, rfl, by decide⟩

theorem claim5_witness :
    ([some "x1".data, some "x2".data, some "D".data] : List (Option PyStr))[0]? =
      some (some "x1".data) :=
  claim5_positional_passthrough wCore wC (by rfl) (by decide)
    ["x1".data, "x2".data] [some "x1".data, some "x2".data, some "D".data] (by rfl)
    0 (by decide) (by decide)

theorem takeLen_append {α : Type} (a b : List α) : (a ++ b).take a.length = a := by
  induction a with
  | nil => rfl
  | cons x a ih => simp only [List.cons_append, List.length_cons, List.take_succ_cons, ih]

theorem dropLen_append {α : Type} (a b : List α) : (a ++ b).drop a.length = b := by
  induction a with
  | nil => rfl
  | cons x a ih => simp only [List.cons_append, List.length_cons, List.drop_succ_cons, ih]

theorem urlparsePath_plain (t : PyStr) (h1 : ':' ∉ t) (h2 : '#' ∉ t) (h3 : '?' ∉ t)
    (h4 : ';' ∉ t) (h5 : t.take 2 ≠ "//".data) : urlparsePath t = .ok t := by
  have hfind : pyFindChar ':' t = none := pyFindChar_eq_none ':' t h1
  have htake : (t.take 2 == "//".data) = false := beq_eq_false_iff_ne.mpr h5
  have hipv : ipv6Bad ([] : PyStr) = false := rfl
  have hf : uses_fragment.contains ([] : PyStr) = true := rfl
  have hq : uses_query.contains ([] : PyStr) = true := rfl
  have hsp : urlsplitSP t = .ok ([], t) := by
    unfold urlsplitSP urlsplitRest
    rw [hfind]
    simp only [htake, Bool.false_eq_true, if_false, hipv, hf, hq, if_true,
      stripAfter_no_occ '#' t h2, stripAfter_no_occ '?' t h3]
  have hsemi : t.contains ';' = false := contains_eq_false_of_not_mem h4
  unfold urlparsePath
  simp only [bind, Except.bind, hsp, hsemi, Bool.and_false, Bool.false_eq_true,
    if_false, pure, Except.pure]

theorem urlsplitSP_http (h r : PyStr)
    (hpredh : ∀ ch ∈ h, (ch == '/' || ch == '?' || ch == '#') = false)
    (hlb : '[' ∉ h) (hrb : ']' ∉ h) (h2 : '#' ∉ ('/' :: r)) (h3 : '?' ∉ ('/' :: r)) :
    urlsplitSP ('h' :: 't' :: 't' :: 'p' :: ':' :: '/' :: '/' :: (h ++ '/' :: r)) =
      .ok ("http".data, '/' :: r) := by
  have hfind : pyFindChar ':'
      ('h' :: 't' :: 't' :: 'p' :: ':' :: '/' :: '/' :: (h ++ '/' :: r)) = some 4 := by
    simp only [pyFindChar, pyFindP, Option.map_some',
      show ('h' == ':') = false from by decide,
      show ('t' == ':') = false from by decide,
      show ('p' == ':') = false from by decide,
      show (':' == ':') = true from by decide,
      Bool.false_eq_true, if_false, if_true]
  have hnet : splitNetloc ('/' :: '/' :: (h ++ '/' :: r)) = (h, '/' :: r) := by
    unfold splitNetloc
    have hd : ('/' :: '/' :: (h ++ '/' :: r)).drop 2 = h ++ '/' :: r := rfl
    rw [hd, pyFindP_append _ h '/' r hpredh (by decide)]
    show (List.take h.length (h ++ '/' :: r), List.drop h.length (h ++ '/' :: r)) =
      (h, '/' :: r)
    rw [takeLen_append, dropLen_append]
  have step1 : urlsplitSP ('h' :: 't' :: 't' :: 'p' :: ':' :: '/' :: '/' :: (h ++ '/' :: r)) =
      if ipv6Bad (splitNetloc ('/' :: '/' :: (h ++ '/' :: r))).1 = true then
        Except.error PyErr.valueError
      else
        Except.ok ("http".data,
          stripAfter '?' (stripAfter '#' (splitNetloc ('/' :: '/' :: (h ++ '/' :: r))).2)) := by
    unfold urlsplitSP
    rw [hfind]
    rfl
  have hipv : ipv6Bad h = false := by
    unfold ipv6Bad
    rw [contains_eq_false_of_not_mem hlb, contains_eq_false_of_not_mem hrb]
    rfl
  rw [step1, hnet]
  simp only [hipv, Bool.false_eq_true, if_false,
    stripAfter_no_occ '#' ('/' :: r) h2, stripAfter_no_occ '?' ('/' :: r) h3]

/-- C4 (amended): the derived field name is the final `/`-separated segment
of the *URL path component* of the term; this agrees with the final
`/`-separated segment of the raw term both for plain terms free of URI
punctuation (no `:`, `#`, `?`, `;`, not starting with `//`) and for full
`http://host/...` URIs with a non-empty path whose segments are free of
`#`, `?`, `;`.  (It disagrees on terms like `a#b`, where `urlparse` strips
the fragment — see the counterexample.) -/
theorem claim4_last_segment :
    (∀ t : PyStr, ':' ∉ t → '#' ∉ t → '?' ∉ t → ';' ∉ t → t.take 2 ≠ "//".data →
      (FieldType.make (some t) none none).map FieldType.term = .ok (specLastSegment t))
    ∧ ∀ h r : PyStr,
        (∀ ch ∈ h, ch ≠ '/' ∧ ch ≠ '?' ∧ ch ≠ '#' ∧ ch ≠ '[' ∧ ch ≠ ']') →
        '#' ∉ r → '?' ∉ r → ';' ∉ r →
        (FieldType.make (some ("http://".data ++ (h ++ '/' :: r))) none none).map
            FieldType.term =
          .ok (specLastSegment ("http://".data ++ (h ++ '/' :: r))) := by
  constructor
  · intro t h1 h2 h3 h4 h5
    have hpath := urlparsePath_plain t h1 h2 h3 h4 h5
    unfold FieldType.make
    simp only [bind, Except.bind, hpath, pure, Except.pure, Except.map]
    rfl
  · intro h r hh h2 h3 h4
    have hne1 : ('#' : Char) ≠ '/' := by decide
    have hne2 : ('?' : Char) ≠ '/' := by decide
    have hne3 : ((';' : Char) = '/') = False := by simp
    have hpredh : ∀ ch ∈ h, (ch == '/' || ch == '?' || ch == '#') = false := by
      intro ch hch
      rcases hh ch hch with ⟨ha, hb, hc, _, _⟩
      simp [ha, hb, hc]
    have hlb : '[' ∉ h := fun hm => ((hh '[' hm).2.2.2.1 rfl).elim
    have hrb : ']' ∉ h := fun hm => ((hh ']' hm).2.2.2.2 rfl).elim
    have h2' : '#' ∉ ('/' :: r) := by
      intro hm
      rcases List.mem_cons.mp hm with he | hm'
      · exact hne1 he
      · exact h2 hm'
    have h3' : '?' ∉ ('/' :: r) := by
      intro hm
      rcases List.mem_cons.mp hm with he | hm'
      · exact hne2 he
      · exact h3 hm'
    have hsp := urlsplitSP_http h r hpredh hlb hrb h2' h3'
    have hdata : "http://".data ++ (h ++ '/' :: r) =
        'h' :: 't' :: 't' :: 'p' :: ':' :: '/' :: '/' :: (h ++ '/' :: r) := rfl
    rw [hdata]
    have hsemi : ('/' :: r).contains ';' = false := by
      apply contains_eq_false_of_not_mem
      intro hm
      rcases List.mem_cons.mp hm with he | hm'
      · simp [hne3] at he
      · exact h4 hm'
    have hpath : urlparsePath
        ('h' :: 't' :: 't' :: 'p' :: ':' :: '/' :: '/' :: (h ++ '/' :: r)) =
        .ok ('/' :: r) := by
      unfold urlparsePath
      simp only [bind, Except.bind, hsp, hsemi, Bool.and_false, Bool.false_eq_true,
        if_false, pure, Except.pure]
    unfold FieldType.make
    simp only [bind, Except.bind, hpath, pure, Except.pure, Except.map]
    have hleft : (pySplit '/' ('/' :: r)).getLastD [] = (pySplit '/' r).getLastD [] := by
      show (pySplitAux '/' [] ('/' :: r)).getLastD [] = (pySplit '/' r).getLastD []
      simp only [pySplitAux, beq_self_eq_true, if_true, List.getLastD_cons, pySplit]
      exact getLastD_congr (pySplitAux_ne_nil '/' [] r) _ _
    have hright : specLastSegment
        ('h' :: 't' :: 't' :: 'p' :: ':' :: '/' :: '/' :: (h ++ '/' :: r)) =
        (pySplit '/' r).getLastD [] := by
      unfold specLastSegment pySplit
      have hassoc : 'h' :: 't' :: 't' :: 'p' :: ':' :: '/' :: '/' :: (h ++ '/' :: r) =
          ('h' :: 't' :: 't' :: 'p' :: ':' :: '/' :: '/' :: h) ++ '/' :: r := by simp
      rw [hassoc]
      exact pySplitAux_lastSeg '/' r ('h' :: 't' :: 't' :: 'p' :: ':' :: '/' :: '/' :: h) []
    rw [hleft, hright]

/-- C4 counterexample: the constructor accepts the term `a#b`, but the
derived field name is `a` — `urlparse` strips the `#b` fragment before the
final `/`-split — while the final `/`-separated segment of the term is the
whole string `a#b`. -/
theorem claim4_cex :
    (FieldType.make (some "a#b".data) none none).map FieldType.term = .ok "a".data
    ∧ specLastSegment "a#b".data = "a#b".data
    ∧ "a".data ≠ "a#b".data :=
  ⟨rfl, rfl, by decide⟩

theorem claim4_witness :
    (FieldType.make (some "scientificName".data) none none).map FieldType.term =
      .ok (specLastSegment "scientificName".data)
    ∧ (FieldType.make
        (some ("http://".data ++ ("ns.example".data ++ '/' :: "Taxon/scientificName".data)))
        none none).map FieldType.term =
      .ok (specLastSegment
        ("http://".data ++ ("ns.example".data ++ '/' :: "Taxon/scientificName".data))) :=
  ⟨claim4_last_segment.1 "scientificName".data (by decide) (by decide) (by decide)
      (by decide) (by decide),
   claim4_last_segment.2 "ns.example".data "Taxon/scientificName".data (by decide)
      (by decide) (by decide) (by decide)⟩
